import Mathlib

/-!
# manufactures-trace-data: the `cmd` package (`cmd/root.go`)

A shallow embedding of `start`, `convertStepNameToFileName`, `flattenItemMap`
and `writeResult`, with the properties of the merge fold, of file discovery
and of the report layout.

Go values are embedded as follows.

* `string` is `String`.
* `map[string]V` is an association list `List (String × V)`; the list order
  stands for one iteration order of the map.  `mapGet` is `m[k]` with the
  comma-ok result, `mapSet` is `m[k] = v`.
* a channel that has been filled and closed is the list of the values sent.
* `int` is `Int`.
-/

namespace TraceData

/-! ## Go maps -/

/-- Go map with string keys: the entries in one iteration order. -/
abbrev GoMap (V : Type) := List (String × V)

/-- The comma-ok lookup `v, ok := m[k]`. -/
def mapGet {V : Type} : GoMap V → String → Option V
  | [], _ => none
  | (k1, v1) :: m, k => if k1 = k then some v1 else mapGet m k

/-- The assignment `m[k] = v`: an existing entry is overwritten, a new key is added. -/
def mapSet {V : Type} : GoMap V → String → V → GoMap V
  | [], k, v => [(k, v)]
  | (k1, v1) :: m, k, v => if k1 = k then (k, v) :: m else (k1, v1) :: mapSet m k v

/-- The keys that `for k := range m` visits. -/
def mapKeys {V : Type} (m : GoMap V) : List String := m.map Prod.fst

/-- The values that `for _, v := range m` visits. -/
def mapValues {V : Type} (m : GoMap V) : List V := m.map Prod.snd

/-! ## Data model (package `worker`) -/

/-- Modelled from the spec: the `worker` step type is not in `cmd/root.go`;
a StepRecord has a `name` and a `completedAt` timestamp. -/
structure StepRecord where
  name : String
  completedAt : Int
  deriving DecidableEq, Repr

/-- Modelled from the spec: the `GetName` method of the `worker` step type. -/
def StepRecord.GetName (s : StepRecord) : String := s.name

/-- Modelled from the spec: `worker.PartItem`, the single concrete variant of
`worker.Item`; a UnitRecord has a `serialNumber` and a mapping `steps` from
step name to StepRecord. -/
structure PartItem where
  serialNumber : String
  steps : GoMap StepRecord
  deriving DecidableEq, Repr

/-- Modelled from the spec: `Item.GetSerialNumber`. -/
def PartItem.GetSerialNumber (p : PartItem) : String := p.serialNumber

/-- Modelled from the spec: `Item.GetAllSteps`, every StepRecord the record holds. -/
def PartItem.GetAllSteps (p : PartItem) : List StepRecord := mapValues p.steps

/-- Modelled from the spec: `(*PartItem).SetStep(name, step)`, which adds the
step under `name`, overwriting the entry already stored under that name. -/
def PartItem.SetStep (p : PartItem) (name : String) (step : StepRecord) : PartItem :=
  { p with steps := mapSet p.steps name step }

/-- The representation invariant of a UnitRecord: `steps` is a map (no key
occurs twice) from step name to StepRecord (every entry is stored under the
name of its StepRecord). -/
def PartItem.wellFormed (p : PartItem) : Prop :=
  (mapKeys p.steps).Nodup ∧ ∀ e ∈ p.steps, e.1 = e.2.name

instance (p : PartItem) : Decidable p.wellFormed :=
  inferInstanceAs (Decidable ((mapKeys p.steps).Nodup ∧ ∀ e ∈ p.steps, e.1 = e.2.name))

/-! ## The merge fold of `start` (root.go lines 137-157) -/

/-- The body of `for _, item := range itemPartMap` (lines 141-153): an unseen
serial number adopts the item, a seen one has every step of the item set on
the record already stored. -/
def mergeItem (itemMap : GoMap PartItem) (item : PartItem) : GoMap PartItem :=
  let itemSerialNumber := item.GetSerialNumber
  match mapGet itemMap itemSerialNumber with
  | none => mapSet itemMap itemSerialNumber item
  | some cur =>
    let allSteps := item.GetAllSteps
    mapSet itemMap itemSerialNumber
      (allSteps.foldl (fun acc step => acc.SetStep step.GetName step) cur)

/-- The loop over one received batch (line 141). -/
def mergeBatch (itemMap : GoMap PartItem) (itemPartMap : GoMap PartItem) : GoMap PartItem :=
  (mapValues itemPartMap).foldl mergeItem itemMap

/-- The loop draining `itemPartMapChan` into a fresh `itemMap` (lines 138-157);
`batches` are the values received from the closed channel, in order. -/
def mergeAll (batches : List (GoMap PartItem)) : GoMap PartItem :=
  batches.foldl mergeBatch []

/-- Every partial record of every batch, in the order the fold visits them. -/
def allItems (batches : List (GoMap PartItem)) : List PartItem :=
  batches.flatMap mapValues

/-- The function `flattenItemMap` (lines 181-187). -/
def flattenItemMap (itemMap : GoMap PartItem) : List PartItem :=
  (mapValues itemMap).foldl (fun items item => items ++ [item]) []

/-- The StepRecord that `itemMap` stores for serial number `k` and step name `s`. -/
def stepAt (itemMap : GoMap PartItem) (k s : String) : Option StepRecord :=
  match mapGet itemMap k with
  | none => none
  | some cur => mapGet cur.steps s

/-- The StepRecord for step name `s` carried by the last record of `items`
with serial number `k` that has one; `init` when there is none. -/
def lastStepFrom (init : Option StepRecord) (items : List PartItem) (k s : String) :
    Option StepRecord :=
  items.foldl (fun acc r =>
    if r.serialNumber = k then
      match mapGet r.steps s with
      | some st => some st
      | none => acc
    else acc) init

/-- The invariant of `itemMap` during the merge: no serial number is stored
twice and every record is stored under its own serial number. -/
def keyedBySerial (itemMap : GoMap PartItem) : Prop :=
  (mapKeys itemMap).Nodup ∧ ∀ e ∈ itemMap, e.2.serialNumber = e.1

instance (itemMap : GoMap PartItem) : Decidable (keyedBySerial itemMap) :=
  inferInstanceAs (Decidable ((mapKeys itemMap).Nodup ∧ ∀ e ∈ itemMap, e.2.serialNumber = e.1))

/-- Two records carry disjoint step names: no StepRecord of the one has the
name of a StepRecord of the other. -/
def disjointSteps (a b : PartItem) : Prop :=
  ∀ x ∈ a.GetAllSteps, ∀ y ∈ b.GetAllSteps, x.GetName ≠ y.GetName

instance (a b : PartItem) : Decidable (disjointSteps a b) :=
  inferInstanceAs (Decidable (∀ x ∈ a.GetAllSteps, ∀ y ∈ b.GetAllSteps, x.GetName ≠ y.GetName))

/-- Records sharing a serial number carry pairwise disjoint step names. -/
def disjointPerSerial (items : List PartItem) : Prop :=
  items.Pairwise (fun a b => a.GetSerialNumber = b.GetSerialNumber → disjointSteps a b)

instance (items : List PartItem) : Decidable (disjointPerSerial items) :=
  inferInstanceAs (Decidable (items.Pairwise
    (fun (a b : PartItem) => a.GetSerialNumber = b.GetSerialNumber → disjointSteps a b)))

/-- Two batches read from the StepA and the StepB file, both for unit SN001. -/
def exampleBatches : List (GoMap PartItem) :=
  [[("SN001", { serialNumber := "SN001", steps := [("A", { name := "A", completedAt := 1 })] })],
   [("SN001", { serialNumber := "SN001", steps := [("B", { name := "B", completedAt := 4 })] })]]

/-- Two batches that both carry step A for unit SN001, with different times. -/
def clashingBatches : List (GoMap PartItem) :=
  [[("SN001", { serialNumber := "SN001", steps := [("A", { name := "A", completedAt := 1 })] })],
   [("SN001", { serialNumber := "SN001", steps := [("A", { name := "A", completedAt := 9 })] })]]

/-! ## File names and file discovery (root.go lines 103-117, 170-179) -/

/-- Go `strings.Join(elems, sep)`. -/
def stringsJoin : List String → String → String
  | [], _ => ""
  | [a], _ => a
  | a :: b :: rest, sep => a ++ sep ++ stringsJoin (b :: rest) sep

/-- Go `strings.HasSuffix(s, suffix)`:
`len(s) >= len(suffix) && s[len(s)-len(suffix):] == suffix`. -/
def stringsHasSuffix (s suffix : String) : Bool :=
  decide (suffix.data.length ≤ s.data.length) &&
    decide (s.data.drop (s.data.length - suffix.data.length) = suffix.data)

/-- The function `convertStepNameToFileName` (lines 170-179). -/
def convertStepNameToFileName (stepShortName : String) : String :=
  let specs := ["raw-data", "download", "N199", "Housing TI-LDG", stepShortName]
  stringsJoin specs "-" ++ ".csv"

/-- One entry of the listing returned by `ioutil.ReadDir`: what `start` reads
of an `os.FileInfo`. -/
structure FileInfo where
  Name : String
  IsDir : Bool
  deriving DecidableEq, Repr

/-- The inner loop `for _, stepShortName := range config.StepOrderShort`
(lines 110-116): the first short code whose file name is `name`, at which the
loop assigns and breaks. -/
def matchShortName (name : String) : List String → Option String
  | [] => none
  | stepShortName :: rest =>
    let need := convertStepNameToFileName stepShortName
    if name = need then some stepShortName else matchShortName name rest

/-- The body of `for _, fileInfo := range fileInfos` (lines 105-117);
`filepathJoin` is `filepath.Join`. -/
def discoverEntry (filepathJoin : String → String → String) (inputFilesPath : String)
    (stepOrderShort : List String) (stepShortName2FilePath : GoMap String)
    (fileInfo : FileInfo) : GoMap String :=
  if fileInfo.IsDir || !stringsHasSuffix fileInfo.Name ".csv" then
    stepShortName2FilePath
  else
    match matchShortName fileInfo.Name stepOrderShort with
    | some stepShortName =>
      mapSet stepShortName2FilePath stepShortName (filepathJoin inputFilesPath fileInfo.Name)
    | none => stepShortName2FilePath

/-- The discovery loop of `start` (lines 104-117), from an empty map. -/
def discover (filepathJoin : String → String → String) (inputFilesPath : String)
    (stepOrderShort : List String) (fileInfos : List FileInfo) : GoMap String :=
  fileInfos.foldl (discoverEntry filepathJoin inputFilesPath stepOrderShort) []

/-! ## The report (root.go lines 189-231) -/

/-- One CSV record. -/
abbrev Row := List String

/-- Modelled from the spec: `worker.ResultSet`, whose declaration is not in
`cmd/root.go`; `StepsTimeNumber` maps fromStep to toStep to the sequence of
bucket counts.  The counts are a Go slice of `int`: `writeResult` ranges over
them and passes each one to `strconv.Itoa`, and the number of buckets follows
from the last argument of `master.Run`. -/
structure ResultSet where
  StepsTimeNumber : GoMap (GoMap (List Int))
  deriving DecidableEq, Repr

/-- The expression `resultSet.StepsTimeNumber[fromStep][toStep]`: a missing key
of either map gives the nil slice. -/
def timeSpentIntervals (resultSet : ResultSet) (fromStep toStep : String) : List Int :=
  match mapGet resultSet.StepsTimeNumber fromStep with
  | none => []
  | some inner =>
    match mapGet inner toStep with
    | none => []
    | some counts => counts

/-- Go `strconv.Itoa`: the base-10 rendering of an `int`. -/
def strconvItoa : Int → String
  | Int.ofNat n => String.mk (Nat.toDigits 10 n)
  | Int.negSucc n => "-" ++ String.mk (Nat.toDigits 10 (n + 1))

/-- The header record of the report (lines 202-207). -/
def header : Row :=
  ["ProjectCode", "FromStep", "ToStep",
   "1-Days", "2-Days", "3-Days",
   "4-Days", "5-Days", "6-Days",
   "7-Days", ">7-Days"]

/-- The record built for one pair of steps (lines 216-224). -/
def buildRow (resultSet : ResultSet) (fromStep toStep : String) : Row :=
  let intervals := timeSpentIntervals resultSet fromStep toStep
  let row : Row := []
  let row := row ++ ["N199"]
  let row := row ++ [fromStep]
  let row := row ++ [toStep]
  intervals.foldl (fun row interval => row ++ [strconvItoa interval]) row

/-- The state of the CSV writer and the status of the function: the records
written so far and the error returned, if any. -/
structure WriteState where
  records : List Row
  err : Option String
  deriving DecidableEq, Repr

/-- The call `writer.Write(record)`; `writeFails k` says that the write
attempted after `k` records have been written fails. -/
def writerWrite (writeFails : Nat → Bool) (records : List Row) (record : Row) : WriteState :=
  if writeFails records.length then
    { records := records, err := some "write failed" }
  else
    { records := records ++ [record], err := none }

/-- The loop `for j := i; j < len(fullStepOrdering); j++` (lines 214-228),
entered at `j` with `records` written. -/
def innerLoop (writeFails : Nat → Bool) (resultSet : ResultSet)
    (fullStepOrdering : List String) (fromStep : String) (j : Nat)
    (records : List Row) : WriteState :=
  if j < fullStepOrdering.length then
    let toStep := fullStepOrdering.getD j ""
    let row := buildRow resultSet fromStep toStep
    let st := writerWrite writeFails records row
    match st.err with
    | some e => { records := st.records, err := some e }
    | none => innerLoop writeFails resultSet fullStepOrdering fromStep (j + 1) st.records
  else
    { records := records, err := none }
termination_by fullStepOrdering.length - j

/-- The loop `for i := 0; i < len(fullStepOrdering); i++` (lines 212-229),
entered at `i` with `records` written. -/
def outerLoop (writeFails : Nat → Bool) (resultSet : ResultSet)
    (fullStepOrdering : List String) (i : Nat) (records : List Row) : WriteState :=
  if i < fullStepOrdering.length then
    let fromStep := fullStepOrdering.getD i ""
    let st := innerLoop writeFails resultSet fullStepOrdering fromStep i records
    match st.err with
    | some e => { records := st.records, err := some e }
    | none => outerLoop writeFails resultSet fullStepOrdering (i + 1) st.records
  else
    { records := records, err := none }
termination_by fullStepOrdering.length - i

/-- The function `writeResult` (lines 189-231).  `createErr` is the error of
`os.Create(outputFilePath)`, if any; the result holds the records written to
the file and the error returned. -/
def writeResult (createErr : Option String) (writeFails : Nat → Bool)
    (resultSet : ResultSet) (fullStepOrdering : List String) : WriteState :=
  match createErr with
  | some e => { records := [], err := some e }
  | none =>
    let st := writerWrite writeFails [] header
    match st.err with
    | some e => { records := st.records, err := some e }
    | none => outerLoop writeFails resultSet fullStepOrdering 0 st.records

/-- The index pairs `(i, j)` with `i ≤ j < n`, in lexicographic order. -/
def indexPairs (n : Nat) : List (Nat × Nat) :=
  (List.range n).flatMap (fun i => (List.range' i (n - i)).map (fun j => (i, j)))

/-! ## The run (`start`, root.go lines 90-168) -/

/-- Modelled from the spec: the configuration returned by
`config.NewConfigFromFile`; the canonical step order, the short codes used for
file discovery and the short-code-to-display-name mapping. -/
structure Config where
  StepOrder : List String
  StepOrderShort : List String
  NameMap : GoMap String

/-- The command-line flags read by `start`. -/
structure Flags where
  configFilePath : String
  inputFilesPath : String
  ouputFilePath : String

/-- The collaborators of `start` that are outside `cmd/root.go`. -/
structure Env where
  /-- The call `config.NewConfigFromFile(path)`. -/
  newConfigFromFile : String → Except String Config
  /-- The call `ioutil.ReadDir(path)`. -/
  readDir : String → Except String (List FileInfo)
  /-- The call `filepath.Join(dir, name)`. -/
  filepathJoin : String → String → String
  /-- Modelled from the spec: `file.ReadFileAndConvertToItem`, the Ingestor; it
  sends one batch on the result channel, or one error on the error channel. -/
  readFileAndConvertToItem :
    String → List String → String → String → Except String (GoMap PartItem)
  /-- The call `master.Run(items, stepOrder, workers, maxDays)`. -/
  masterRun : List PartItem → List String → Int → Int → ResultSet
  /-- The error of `os.Create(path)`, if any. -/
  osCreate : String → Option String
  /-- Whether the write attempted after `k` records fails. -/
  writeFails : Nat → Bool

/-- What a run of `start` did. -/
structure Outcome where
  /-- The messages passed to `logger.Error`. -/
  logged : List String
  /-- The Ingestors launched: short code and file path. -/
  launched : GoMap String
  /-- The `itemMap` built by the merge, when the merge ran. -/
  merged : Option (GoMap PartItem)
  /-- The ResultSet returned by `master.Run`, when it ran. -/
  aggregated : Option ResultSet
  /-- The outcome of `writeResult`, when it was called. -/
  written : Option WriteState

/-- The values sent on `itemPartMapChan` by the Ingestors. -/
def sentBatches (results : List (Except String (GoMap PartItem))) : List (GoMap PartItem) :=
  results.filterMap (fun r => match r with
    | Except.ok batch => some batch
    | Except.error _ => none)

/-- The values sent on `errChan` by the Ingestors. -/
def sentErrors (results : List (Except String (GoMap PartItem))) : List String :=
  results.filterMap (fun r => match r with
    | Except.ok _ => none
    | Except.error e => some e)

/-- The function `start` (lines 90-168).  The Ingestors are launched in the
iteration order of `stepShortName2FilePath` and their sends are received in
that order. -/
def start (env : Env) (flags : Flags) : Outcome :=
  match env.newConfigFromFile flags.configFilePath with
  | Except.error _ =>
    { logged := ["failed to read config file"], launched := [],
      merged := none, aggregated := none, written := none }
  | Except.ok config =>
    match env.readDir flags.inputFilesPath with
    | Except.error _ =>
      { logged := ["Failed to read input folder"], launched := [],
        merged := none, aggregated := none, written := none }
    | Except.ok fileInfos =>
      let stepShortName2FilePath :=
        discover env.filepathJoin flags.inputFilesPath config.StepOrderShort fileInfos
      let results := stepShortName2FilePath.map (fun e =>
        env.readFileAndConvertToItem e.2 config.StepOrder e.1
          ((mapGet config.NameMap e.1).getD ""))
      let itemPartMapChan := sentBatches results
      let errChan := sentErrors results
      match errChan with
      | _ :: _ =>
        { logged := ["Failed to read file"], launched := stepShortName2FilePath,
          merged := none, aggregated := none, written := none }
      | [] =>
        let itemMap := mergeAll itemPartMapChan
        let items := flattenItemMap itemMap
        let result := env.masterRun items config.StepOrder 24 7
        let w := writeResult (env.osCreate flags.ouputFilePath) env.writeFails
          result config.StepOrder
        { logged := match w.err with
            | some _ => ["Failed to write result to file"]
            | none => [],
          launched := stepShortName2FilePath,
          merged := some itemMap, aggregated := some result, written := some w }

/-- The errors present on `errChan` once every Ingestor has finished, for a
run that got as far as launching them. -/
def ingestErrors (env : Env) (flags : Flags) : List String :=
  match env.newConfigFromFile flags.configFilePath, env.readDir flags.inputFilesPath with
  | Except.ok config, Except.ok fileInfos =>
    sentErrors ((discover env.filepathJoin flags.inputFilesPath config.StepOrderShort
      fileInfos).map (fun e =>
        env.readFileAndConvertToItem e.2 config.StepOrder e.1
          ((mapGet config.NameMap e.1).getD "")))
  | _, _ => []

/-- A listing with the StepA file, a directory, a text file and a CSV file of
another product. -/
def exampleListing : List FileInfo :=
  [{ Name := "raw-data-download-N199-Housing TI-LDG-A.csv", IsDir := false },
   { Name := "archive", IsDir := true },
   { Name := "notes.txt", IsDir := false },
   { Name := "other.csv", IsDir := false }]

/-- A ResultSet in which only the pair (A, A) is populated, as when every
unit was seen at step A only. -/
def onlyStepA : ResultSet :=
  { StepsTimeNumber := [("A", [("A", [1, 0, 0, 0, 0, 0, 0, 0])])] }

/-- A writer on which no write fails. -/
def neverFails : Nat → Bool := fun _ => false

/-! ### Map lemmas -/

theorem mapGet_mapSet {V : Type} (m : GoMap V) (k : String) (v : V) (k2 : String) :
    mapGet (mapSet m k v) k2 = if k = k2 then some v else mapGet m k2 := by
  induction m with
  | nil => simp [mapSet, mapGet]
  | cons e m ih =>
    obtain ⟨k1, v1⟩ := e
    by_cases h : k1 = k
    · subst h
      by_cases h2 : k1 = k2 <;> simp [mapSet, mapGet, h2]
    · by_cases h2 : k1 = k2
      · subst h2
        have h3 : ¬ k = k1 := fun h4 => h h4.symm
        simp [mapSet, mapGet, h, h3]
      · simp [mapSet, mapGet, h, h2, ih]

theorem mapGet_eq_none_iff {V : Type} (m : GoMap V) (k : String) :
    mapGet m k = none ↔ k ∉ mapKeys m := by
  induction m with
  | nil => simp [mapGet, mapKeys]
  | cons e m ih =>
    obtain ⟨k1, v1⟩ := e
    by_cases h : k1 = k
    · simp [mapGet, mapKeys, h]
    · have h3 : ¬ k = k1 := fun h4 => h h4.symm
      simpa [mapGet, mapKeys, h, h3] using ih

theorem mapGet_isSome_iff {V : Type} (m : GoMap V) (k : String) :
    (mapGet m k).isSome ↔ k ∈ mapKeys m := by
  rw [← not_iff_not, ← mapGet_eq_none_iff]
  cases mapGet m k <;> simp

theorem mem_mapKeys_mapSet {V : Type} (m : GoMap V) (k : String) (v : V) (k2 : String) :
    k2 ∈ mapKeys (mapSet m k v) ↔ k2 = k ∨ k2 ∈ mapKeys m := by
  rw [← mapGet_isSome_iff, ← mapGet_isSome_iff, mapGet_mapSet]
  by_cases h : k = k2
  · simp [h]
  · have h3 : ¬ k2 = k := fun h4 => h h4.symm
    simp [h, h3]

theorem mapGet_mem {V : Type} (m : GoMap V) (k : String) (v : V)
    (h : mapGet m k = some v) : (k, v) ∈ m := by
  induction m with
  | nil => simp [mapGet] at h
  | cons e m ih =>
    obtain ⟨k1, v1⟩ := e
    by_cases h1 : k1 = k
    · simp [mapGet, h1] at h
      simp [h1, h]
    · simp [mapGet, h1] at h
      exact List.mem_cons_of_mem _ (ih h)

theorem mapGet_of_mem {V : Type} (m : GoMap V) (k : String) (v : V)
    (hn : (mapKeys m).Nodup) (h : (k, v) ∈ m) : mapGet m k = some v := by
  induction m with
  | nil => simp at h
  | cons e m ih =>
    obtain ⟨k1, v1⟩ := e
    simp only [mapKeys, List.map_cons, List.nodup_cons] at hn
    rcases List.mem_cons.1 h with h1 | h1
    · cases h1
      simp [mapGet]
    · have hne : k1 ≠ k := by
        intro h2
        subst h2
        exact hn.1 (List.mem_map.2 ⟨(k1, v), h1, rfl⟩)
      simp only [mapGet, hne, if_false]
      exact ih hn.2 h1

theorem mapKeys_mapSet_nodup {V : Type} (m : GoMap V) (k : String) (v : V)
    (hn : (mapKeys m).Nodup) : (mapKeys (mapSet m k v)).Nodup := by
  induction m with
  | nil => simp [mapSet, mapKeys]
  | cons e m ih =>
    obtain ⟨k1, v1⟩ := e
    have hn2 := hn
    simp only [mapKeys, List.map_cons, List.nodup_cons] at hn2
    by_cases h : k1 = k
    · subst h
      simpa [mapSet, mapKeys] using hn2
    · have ih2 := ih hn2.2
      have hm := mem_mapKeys_mapSet m k v k1
      simp only [mapSet, h, if_false, mapKeys, List.map_cons, List.nodup_cons]
      refine ⟨?_, ih2⟩
      intro hc
      rcases hm.1 hc with h5 | h5
      · exact h h5
      · exact hn2.1 h5


theorem mem_mapSet {V : Type} (m : GoMap V) (k : String) (v : V) (e : String × V)
    (h : e ∈ mapSet m k v) : e = (k, v) ∨ e ∈ m := by
  induction m with
  | nil => simpa [mapSet] using h
  | cons e1 m ih =>
    obtain ⟨k1, v1⟩ := e1
    by_cases h1 : k1 = k
    · simp only [mapSet, h1, if_true, List.mem_cons] at h
      rcases h with h | h
      · exact Or.inl h
      · exact Or.inr (List.mem_cons_of_mem _ h)
    · simp only [mapSet, h1, if_false, List.mem_cons] at h
      rcases h with h | h
      · exact Or.inr (by simp [h])
      · rcases ih h with h2 | h2
        · exact Or.inl h2
        · exact Or.inr (List.mem_cons_of_mem _ h2)

/-! ### Merge lemmas -/

theorem mergeAll_eq_foldl_aux (batches : List (GoMap PartItem)) (m : GoMap PartItem) :
    batches.foldl mergeBatch m = (allItems batches).foldl mergeItem m := by
  induction batches generalizing m with
  | nil => simp [allItems]
  | cons b bs ih =>
    simp only [List.foldl_cons, allItems, List.flatMap_cons, List.foldl_append]
    rw [ih]
    rfl

theorem mergeAll_eq_foldl (batches : List (GoMap PartItem)) :
    mergeAll batches = (allItems batches).foldl mergeItem [] :=
  mergeAll_eq_foldl_aux batches []

theorem mem_allItems (batches : List (GoMap PartItem)) (r : PartItem) :
    r ∈ allItems batches ↔ ∃ b ∈ batches, r ∈ mapValues b := by
  simp [allItems, List.mem_flatMap]

theorem setSteps_serial (steps : List StepRecord) (cur : PartItem) :
    (steps.foldl (fun acc step => acc.SetStep step.GetName step) cur).serialNumber
      = cur.serialNumber := by
  induction steps generalizing cur with
  | nil => rfl
  | cons st steps ih =>
    simp only [List.foldl_cons]
    rw [ih]
    rfl

theorem setSteps_get (es : GoMap StepRecord) (cur : PartItem) (s : String)
    (hn : (mapKeys es).Nodup) (hk : ∀ e ∈ es, e.1 = e.2.name) :
    mapGet ((mapValues es).foldl (fun acc step => acc.SetStep step.GetName step) cur).steps s
      = match mapGet es s with
        | some st => some st
        | none => mapGet cur.steps s := by
  induction es generalizing cur with
  | nil => simp [mapValues, mapGet]
  | cons e es ih =>
    obtain ⟨k1, v1⟩ := e
    have hn2 := hn
    simp only [mapKeys, List.map_cons, List.nodup_cons] at hn2
    have hk1 : k1 = v1.name := hk (k1, v1) (List.mem_cons_self _ _)
    have hk2 : ∀ e ∈ es, e.1 = e.2.name := fun e he => hk e (List.mem_cons_of_mem _ he)
    simp only [mapValues, List.map_cons, List.foldl_cons]
    have := ih (cur.SetStep v1.GetName v1) hn2.2 hk2
    simp only [mapValues] at this
    rw [this]
    by_cases h : k1 = s
    · subst h
      have hnone : mapGet es k1 = none := (mapGet_eq_none_iff es k1).2 hn2.1
      simp [mapGet, hnone, PartItem.SetStep, StepRecord.GetName, mapGet_mapSet, ← hk1]
    · have h2 : ¬ v1.name = s := by rw [← hk1]; exact h
      simp [mapGet, h, PartItem.SetStep, StepRecord.GetName, mapGet_mapSet, h2]

theorem mem_mapKeys_mergeItem (m : GoMap PartItem) (r : PartItem) (k : String) :
    k ∈ mapKeys (mergeItem m r) ↔ k = r.serialNumber ∨ k ∈ mapKeys m := by
  unfold mergeItem
  simp only [PartItem.GetSerialNumber]
  cases mapGet m r.serialNumber <;> simp [mem_mapKeys_mapSet]

theorem mem_mapKeys_foldl_mergeItem (items : List PartItem) (m : GoMap PartItem) (k : String) :
    k ∈ mapKeys (items.foldl mergeItem m) ↔
      k ∈ mapKeys m ∨ ∃ r ∈ items, r.serialNumber = k := by
  induction items generalizing m with
  | nil => simp
  | cons r items ih =>
    simp only [List.foldl_cons, ih, mem_mapKeys_mergeItem, List.mem_cons]
    constructor
    · rintro ((h | h) | ⟨q, hq, hqk⟩)
      · exact Or.inr ⟨r, Or.inl rfl, h.symm⟩
      · exact Or.inl h
      · exact Or.inr ⟨q, Or.inr hq, hqk⟩
    · rintro (h | ⟨q, hq | hq, hqk⟩)
      · exact Or.inl (Or.inr h)
      · subst hq
        exact Or.inl (Or.inl hqk.symm)
      · exact Or.inr ⟨q, hq, hqk⟩

theorem stepAt_mergeItem (m : GoMap PartItem) (r : PartItem) (k s : String)
    (hr : r.wellFormed) :
    stepAt (mergeItem m r) k s =
      if r.serialNumber = k then
        match mapGet r.steps s with
        | some st => some st
        | none => stepAt m k s
      else stepAt m k s := by
  unfold mergeItem stepAt
  simp only [PartItem.GetSerialNumber, PartItem.GetAllSteps]
  by_cases h : r.serialNumber = k
  · subst h
    cases hm : mapGet m r.serialNumber with
    | none =>
      simp only [mapGet_mapSet, if_true]
      cases mapGet r.steps s <;> rfl
    | some cur =>
      simp only [mapGet_mapSet, if_true]
      exact setSteps_get r.steps cur s hr.1 hr.2
  · cases hm : mapGet m r.serialNumber <;> simp [mapGet_mapSet, h]

theorem stepAt_foldl_mergeItem (items : List PartItem) (m : GoMap PartItem) (k s : String)
    (hwf : ∀ r ∈ items, r.wellFormed) :
    stepAt (items.foldl mergeItem m) k s = lastStepFrom (stepAt m k s) items k s := by
  induction items generalizing m with
  | nil => rfl
  | cons r items ih =>
    simp only [List.foldl_cons, lastStepFrom]
    rw [ih _ (fun q hq => hwf q (List.mem_cons_of_mem _ hq)),
      stepAt_mergeItem m r k s (hwf r (List.mem_cons_self _ _))]
    rfl

theorem lastStepFrom_append (init : Option StepRecord) (xs ys : List PartItem) (k s : String) :
    lastStepFrom init (xs ++ ys) k s = lastStepFrom (lastStepFrom init xs k s) ys k s := by
  simp [lastStepFrom, List.foldl_append]

theorem lastStepFrom_of_none (init : Option StepRecord) (items : List PartItem) (k s : String)
    (h : ∀ q ∈ items, q.serialNumber = k → mapGet q.steps s = none) :
    lastStepFrom init items k s = init := by
  induction items generalizing init with
  | nil => rfl
  | cons r items ih =>
    simp only [lastStepFrom, List.foldl_cons]
    have h2 := ih init (fun q hq => h q (List.mem_cons_of_mem _ hq))
    simp only [lastStepFrom] at h2
    by_cases hk : r.serialNumber = k
    · have := h r (List.mem_cons_self _ _) hk
      simpa [hk, this] using h2
    · simpa [hk] using h2

theorem lastStepFrom_split (init : Option StepRecord) (pre post : List PartItem)
    (r : PartItem) (s : String) (st : StepRecord)
    (hr : mapGet r.steps s = some st)
    (hpost : ∀ q ∈ post, q.serialNumber = r.serialNumber → mapGet q.steps s = none) :
    lastStepFrom init (pre ++ r :: post) r.serialNumber s = some st := by
  rw [lastStepFrom_append]
  have hcons : lastStepFrom (lastStepFrom init pre r.serialNumber s) (r :: post) r.serialNumber s
      = lastStepFrom (some st) post r.serialNumber s := by
    simp [lastStepFrom, hr]
  rw [hcons]
  exact lastStepFrom_of_none _ post _ s hpost

theorem lastStepFrom_some (items : List PartItem) (k s : String) (st : StepRecord)
    (h : lastStepFrom none items k s = some st) :
    ∃ r ∈ items, r.serialNumber = k ∧ mapGet r.steps s = some st := by
  induction items using List.reverseRecOn with
  | nil => simp [lastStepFrom] at h
  | append_singleton items r ih =>
    rw [lastStepFrom_append] at h
    by_cases hk : r.serialNumber = k
    · cases hg : mapGet r.steps s with
      | none =>
        simp only [lastStepFrom, List.foldl_cons, List.foldl_nil, hk, if_true, hg] at h
        obtain ⟨q, hq, hq2⟩ := ih h
        exact ⟨q, List.mem_append_left _ hq, hq2⟩
      | some st2 =>
        simp only [lastStepFrom, List.foldl_cons, List.foldl_nil, hk, if_true, hg] at h
        cases h
        exact ⟨r, by simp, hk, hg⟩
    · simp only [lastStepFrom, List.foldl_cons, List.foldl_nil, hk, if_false] at h
      obtain ⟨q, hq, hq2⟩ := ih h
      exact ⟨q, List.mem_append_left _ hq, hq2⟩


theorem keyedBySerial_mergeItem (m : GoMap PartItem) (r : PartItem) (h : keyedBySerial m) :
    keyedBySerial (mergeItem m r) := by
  unfold mergeItem
  simp only [PartItem.GetSerialNumber, PartItem.GetAllSteps]
  cases hm : mapGet m r.serialNumber with
  | none =>
    refine ⟨mapKeys_mapSet_nodup _ _ _ h.1, ?_⟩
    intro e he
    rcases mem_mapSet _ _ _ _ he with h1 | h1
    · rw [h1]
    · exact h.2 e h1
  | some cur =>
    refine ⟨mapKeys_mapSet_nodup _ _ _ h.1, ?_⟩
    intro e he
    rcases mem_mapSet _ _ _ _ he with h1 | h1
    · rw [h1]
      simp only
      rw [setSteps_serial]
      exact h.2 _ (mapGet_mem m _ _ hm)
    · exact h.2 e h1

theorem keyedBySerial_foldl (items : List PartItem) (m : GoMap PartItem) (h : keyedBySerial m) :
    keyedBySerial (items.foldl mergeItem m) := by
  induction items generalizing m with
  | nil => exact h
  | cons r items ih => exact ih _ (keyedBySerial_mergeItem m r h)

theorem keyedBySerial_mergeAll (batches : List (GoMap PartItem)) :
    keyedBySerial (mergeAll batches) := by
  rw [mergeAll_eq_foldl]
  exact keyedBySerial_foldl _ _ ⟨by simp [mapKeys], by simp⟩

theorem mem_mapKeys_mergeAll (batches : List (GoMap PartItem)) (k : String) :
    k ∈ mapKeys (mergeAll batches) ↔ ∃ r ∈ allItems batches, r.serialNumber = k := by
  rw [mergeAll_eq_foldl, mem_mapKeys_foldl_mergeItem]
  simp [mapKeys]

theorem stepAt_mergeAll (batches : List (GoMap PartItem)) (k s : String)
    (hwf : ∀ r ∈ allItems batches, r.wellFormed) :
    stepAt (mergeAll batches) k s = lastStepFrom none (allItems batches) k s := by
  rw [mergeAll_eq_foldl, stepAt_foldl_mergeItem _ _ _ _ hwf]
  rfl

theorem carries_of_get (q : PartItem) (s : String) (st : StepRecord) (hq : q.wellFormed)
    (h : mapGet q.steps s = some st) : st ∈ q.GetAllSteps ∧ st.GetName = s := by
  have hm := mapGet_mem _ _ _ h
  refine ⟨List.mem_map.2 ⟨(s, st), hm, rfl⟩, ?_⟩
  exact (hq.2 _ hm).symm

theorem get_of_carries (q : PartItem) (st : StepRecord) (hq : q.wellFormed)
    (h : st ∈ q.GetAllSteps) : mapGet q.steps st.GetName = some st := by
  obtain ⟨e, he, hst⟩ := List.mem_map.1 h
  obtain ⟨k1, v1⟩ := e
  simp only at hst
  subst hst
  have hk := hq.2 _ he
  simp only at hk
  rw [StepRecord.GetName, ← hk]
  exact mapGet_of_mem _ _ _ hq.1 he

theorem lastStepFrom_of_disjoint (items : List PartItem) (r : PartItem) (s : String)
    (st : StepRecord) (hwf : ∀ q ∈ items, q.wellFormed) (hd : disjointPerSerial items)
    (hr : r ∈ items) (hg : mapGet r.steps s = some st) :
    lastStepFrom none items r.serialNumber s = some st := by
  obtain ⟨pre, post, rfl⟩ := List.append_of_mem hr
  apply lastStepFrom_split none pre post r s st hg
  intro q hq hser
  cases hgq : mapGet q.steps s with
  | none => rfl
  | some st2 =>
    exfalso
    have hq2 : q ∈ pre ++ r :: post := by simp [hq]
    have c1 := carries_of_get r s st (hwf r hr) hg
    have c2 := carries_of_get q s st2 (hwf q hq2) hgq
    have hpw := (List.pairwise_append.1 hd).2.1
    have hrq := (List.pairwise_cons.1 hpw).1 q hq
    exact hrq hser.symm st c1.1 st2 c2.1 (c1.2.trans c2.2.symm)

theorem disjointPerSerial_perm (xs ys : List PartItem) (hp : xs.Perm ys)
    (hd : disjointPerSerial xs) : disjointPerSerial ys := by
  unfold disjointPerSerial at hd ⊢
  refine (hp.pairwise_iff ?_).1 hd
  intro a b hab hser x hx y hy hxy
  exact hab hser.symm y hy x hx hxy.symm

theorem lastStepFrom_perm (xs ys : List PartItem) (k s : String) (hp : xs.Perm ys)
    (hwf : ∀ q ∈ xs, q.wellFormed) (hd : disjointPerSerial xs) :
    lastStepFrom none xs k s = lastStepFrom none ys k s := by
  have hwf2 : ∀ q ∈ ys, q.wellFormed := fun q hq => hwf q (hp.mem_iff.2 hq)
  have hd2 := disjointPerSerial_perm xs ys hp hd
  apply Option.ext
  intro st
  constructor
  · intro h
    obtain ⟨r, hr, hk, hg⟩ := lastStepFrom_some xs k s st h
    subst hk
    exact lastStepFrom_of_disjoint ys r s st hwf2 hd2 (hp.mem_iff.1 hr) hg
  · intro h
    obtain ⟨r, hr, hk, hg⟩ := lastStepFrom_some ys k s st h
    subst hk
    exact lastStepFrom_of_disjoint xs r s st hwf hd (hp.mem_iff.2 hr) hg

theorem flattenItemMap_eq (itemMap : GoMap PartItem) :
    flattenItemMap itemMap = mapValues itemMap := by
  unfold flattenItemMap
  have h : ∀ (xs acc : List PartItem),
      xs.foldl (fun items item => items ++ [item]) acc = acc ++ xs := by
    intro xs
    induction xs with
    | nil => simp
    | cons x xs ih => intro acc; simp [ih]
  simpa using h (mapValues itemMap) []

theorem serials_eq_keys (m : GoMap PartItem) (h : keyedBySerial m) :
    (mapValues m).map PartItem.GetSerialNumber = mapKeys m := by
  simp only [mapValues, mapKeys, List.map_map]
  apply List.map_congr_left
  intro e he
  exact h.2 e he

/-! ## The claims on the merge -/

/-- C1: after the merge fold, `itemMap` has key `k` exactly when some partial
record of some batch has serial number `k`, and the record stored under `k`
has a StepRecord for step name `s` exactly when some partial record with
serial number `k` carried a StepRecord named `s`; the fold adopts the first
record seen for a serial number and sets every step of a later record on the
record stored. -/
theorem merge_keys_and_steps (batches : List (GoMap PartItem))
    (hwf : ∀ r ∈ allItems batches, r.wellFormed) (k : String) :
    (k ∈ mapKeys (mergeAll batches) ↔
        ∃ b ∈ batches, ∃ r ∈ mapValues b, r.GetSerialNumber = k) ∧
    (∀ cur, mapGet (mergeAll batches) k = some cur → ∀ s,
      ((mapGet cur.steps s).isSome ↔
        ∃ b ∈ batches, ∃ r ∈ mapValues b, r.GetSerialNumber = k ∧
          ∃ st ∈ r.GetAllSteps, st.GetName = s)) ∧
    (∀ itemMap item, mapGet itemMap item.GetSerialNumber = none →
      mergeItem itemMap item = mapSet itemMap item.GetSerialNumber item) ∧
    (∀ itemMap item cur, mapGet itemMap item.GetSerialNumber = some cur →
      mergeItem itemMap item = mapSet itemMap item.GetSerialNumber
        (item.GetAllSteps.foldl (fun acc step => acc.SetStep step.GetName step) cur)) := by
  refine ⟨?_, ?_, fun itemMap item h => by simp [mergeItem, h],
    fun itemMap item cur h => by simp [mergeItem, h]⟩
  · rw [mem_mapKeys_mergeAll]
    constructor
    · rintro ⟨r, hr, hk⟩
      obtain ⟨b, hb, hrb⟩ := (mem_allItems batches r).1 hr
      exact ⟨b, hb, r, hrb, hk⟩
    · rintro ⟨b, hb, r, hrb, hk⟩
      exact ⟨r, (mem_allItems batches r).2 ⟨b, hb, hrb⟩, hk⟩
  · intro cur hcur s
    have hst : stepAt (mergeAll batches) k s = mapGet cur.steps s := by
      simp [stepAt, hcur]
    rw [← hst, stepAt_mergeAll batches k s hwf]
    constructor
    · intro h
      obtain ⟨st, hsome⟩ := Option.isSome_iff_exists.1 h
      obtain ⟨r, hr, hk, hg⟩ := lastStepFrom_some _ k s st hsome
      obtain ⟨b, hb, hrb⟩ := (mem_allItems batches r).1 hr
      have c := carries_of_get r s st (hwf r hr) hg
      exact ⟨b, hb, r, hrb, hk, st, c.1, c.2⟩
    · rintro ⟨b, hb, r, hrb, hk, st, hst1, hst2⟩
      have hr : r ∈ allItems batches := (mem_allItems batches r).2 ⟨b, hb, hrb⟩
      have hg := get_of_carries r st (hwf r hr) hst1
      rw [hst2] at hg
      by_contra hnone
      have hnone2 : lastStepFrom none (allItems batches) k s = none := by
        cases hl : lastStepFrom none (allItems batches) k s with
        | none => rfl
        | some x => simp [hl] at hnone
      obtain ⟨pre, post, hsplit⟩ := List.append_of_mem hr
      rw [hsplit, lastStepFrom_append] at hnone2
      simp only [lastStepFrom, List.foldl_cons] at hnone2
      simp only [PartItem.GetSerialNumber] at hk
      simp only [hk, if_true, hg] at hnone2
      have hkeep : ∀ (xs : List PartItem) (x : StepRecord),
          (xs.foldl (fun acc r =>
            if r.serialNumber = k then
              match mapGet r.steps s with
              | some st => some st
              | none => acc
            else acc) (some x)).isSome := by
        intro xs
        induction xs with
        | nil => intro x; rfl
        | cons y ys ih =>
          intro x
          simp only [List.foldl_cons]
          by_cases hy : y.serialNumber = k
          · cases hgy : mapGet y.steps s with
            | none => simpa [hy, hgy] using ih x
            | some z => simpa [hy, hgy] using ih z
          · simpa [hy] using ih x
      have := hkeep post st
      rw [hnone2] at this
      exact absurd this (by simp)

/-- Witness of C1 on the two batches of the end-to-end scenario. -/
theorem merge_keys_and_steps_witness :
    (∀ r ∈ allItems exampleBatches, r.wellFormed) ∧
    ("SN001" ∈ mapKeys (mergeAll exampleBatches) ↔
        ∃ b ∈ exampleBatches, ∃ r ∈ mapValues b, r.GetSerialNumber = "SN001") ∧
    ∀ cur, mapGet (mergeAll exampleBatches) "SN001" = some cur → ∀ s,
      ((mapGet cur.steps s).isSome ↔
        ∃ b ∈ exampleBatches, ∃ r ∈ mapValues b, r.GetSerialNumber = "SN001" ∧
          ∃ st ∈ r.GetAllSteps, st.GetName = s) :=
  ⟨by decide, (merge_keys_and_steps exampleBatches (by decide) "SN001").1,
    (merge_keys_and_steps exampleBatches (by decide) "SN001").2.1⟩

/-- C2: when records sharing a serial number carry pairwise disjoint step
names, two runs of the merge whose batches hold the same partial records in
any two orders (batches permuted, records inside a batch visited in another
order) end with the same keys and, under each key, a record with the same
serial number and the same step-name-to-StepRecord mapping. -/
theorem merge_order_independent (batches1 batches2 : List (GoMap PartItem))
    (hperm : (allItems batches1).Perm (allItems batches2))
    (hwf : ∀ r ∈ allItems batches1, r.wellFormed)
    (hdisj : disjointPerSerial (allItems batches1)) (k : String) :
    (k ∈ mapKeys (mergeAll batches1) ↔ k ∈ mapKeys (mergeAll batches2)) ∧
    ∀ a b, mapGet (mergeAll batches1) k = some a → mapGet (mergeAll batches2) k = some b →
      a.GetSerialNumber = b.GetSerialNumber ∧ ∀ s, mapGet a.steps s = mapGet b.steps s := by
  have hwf2 : ∀ r ∈ allItems batches2, r.wellFormed := fun q hq => hwf q (hperm.mem_iff.2 hq)
  constructor
  · rw [mem_mapKeys_mergeAll, mem_mapKeys_mergeAll]
    constructor
    · rintro ⟨r, hr, hk⟩
      exact ⟨r, hperm.mem_iff.1 hr, hk⟩
    · rintro ⟨r, hr, hk⟩
      exact ⟨r, hperm.mem_iff.2 hr, hk⟩
  · intro a b ha hb
    constructor
    · have h1 := (keyedBySerial_mergeAll batches1).2 _ (mapGet_mem _ _ _ ha)
      have h2 := (keyedBySerial_mergeAll batches2).2 _ (mapGet_mem _ _ _ hb)
      simp only at h1 h2
      simp [PartItem.GetSerialNumber, h1, h2]
    · intro s
      have e1 : stepAt (mergeAll batches1) k s = mapGet a.steps s := by simp [stepAt, ha]
      have e2 : stepAt (mergeAll batches2) k s = mapGet b.steps s := by simp [stepAt, hb]
      rw [← e1, ← e2, stepAt_mergeAll batches1 k s hwf, stepAt_mergeAll batches2 k s hwf2]
      exact lastStepFrom_perm _ _ k s hperm hwf hdisj

/-- Witness of C2: the two batches of the end-to-end scenario, merged in the
order read and in the reverse order. -/
theorem merge_order_independent_witness :
    (allItems exampleBatches).Perm (allItems exampleBatches.reverse) ∧
    (∀ r ∈ allItems exampleBatches, r.wellFormed) ∧
    disjointPerSerial (allItems exampleBatches) ∧
    (("SN001" ∈ mapKeys (mergeAll exampleBatches) ↔
        "SN001" ∈ mapKeys (mergeAll exampleBatches.reverse)) ∧
    ∀ a b, mapGet (mergeAll exampleBatches) "SN001" = some a →
      mapGet (mergeAll exampleBatches.reverse) "SN001" = some b →
      a.GetSerialNumber = b.GetSerialNumber ∧ ∀ s, mapGet a.steps s = mapGet b.steps s) :=
  ⟨by decide, by decide, by decide,
    merge_order_independent exampleBatches exampleBatches.reverse
      (by decide) (by decide) (by decide) "SN001"⟩

/-- C3: when several partial records share serial number `k` and step name
`s`, the merge, which is total and reports no error, stores for `(k, s)` the
StepRecord of the record merged last among them. -/
theorem merge_last_wins (batches : List (GoMap PartItem))
    (hwf : ∀ r ∈ allItems batches, r.wellFormed)
    (earlier later : List PartItem) (r : PartItem) (s : String) (st : StepRecord)
    (hsplit : allItems batches = earlier ++ r :: later)
    (hr : st ∈ r.GetAllSteps ∧ st.GetName = s)
    (hlater : ∀ q ∈ later, q.GetSerialNumber = r.GetSerialNumber →
      ∀ x ∈ q.GetAllSteps, x.GetName ≠ s) :
    ∃ cur, mapGet (mergeAll batches) r.GetSerialNumber = some cur ∧
      mapGet cur.steps s = some st := by
  have hrmem : r ∈ allItems batches := by rw [hsplit]; simp
  have hg : mapGet r.steps s = some st := by
    have := get_of_carries r st (hwf r hrmem) hr.1
    rwa [hr.2] at this
  have hpost : ∀ q ∈ later, q.serialNumber = r.serialNumber → mapGet q.steps s = none := by
    intro q hq hser
    cases hgq : mapGet q.steps s with
    | none => rfl
    | some x =>
      exfalso
      have hqmem : q ∈ allItems batches := by rw [hsplit]; simp [hq]
      have c := carries_of_get q s x (hwf q hqmem) hgq
      exact hlater q hq hser x c.1 c.2
  have hlast := lastStepFrom_split none earlier later r s st hg hpost
  rw [← hsplit, ← stepAt_mergeAll batches _ s hwf] at hlast
  simp only [PartItem.GetSerialNumber]
  unfold stepAt at hlast
  cases hm : mapGet (mergeAll batches) r.serialNumber with
  | none => simp [hm] at hlast
  | some cur =>
    rw [hm] at hlast
    exact ⟨cur, rfl, hlast⟩

/-- Witness of C3: step A of unit SN001 is read twice, with times 1 and 9; the
record merged last, with time 9, is the one stored. -/
theorem merge_last_wins_witness :
    (∀ r ∈ allItems clashingBatches, r.wellFormed) ∧
    ∃ cur, mapGet (mergeAll clashingBatches) "SN001" = some cur ∧
      mapGet cur.steps "A" = some { name := "A", completedAt := 9 } :=
  ⟨by decide,
    merge_last_wins clashingBatches (by decide)
      [{ serialNumber := "SN001", steps := [("A", { name := "A", completedAt := 1 })] }] []
      { serialNumber := "SN001", steps := [("A", { name := "A", completedAt := 9 })] }
      "A" { name := "A", completedAt := 9 } (by decide) (by decide) (by decide)⟩

/-- C4: the merge followed by `flattenItemMap` yields one UnitRecord per
distinct serial number of the partial batches: the serial numbers of the
result are pairwise distinct, they are exactly the serial numbers of the
partial records, their number is the number of distinct serial numbers, and
`flattenItemMap` returns every value of the map once. -/
theorem one_record_per_serial (batches : List (GoMap PartItem)) :
    ((flattenItemMap (mergeAll batches)).map PartItem.GetSerialNumber).Nodup ∧
    (∀ k, k ∈ (flattenItemMap (mergeAll batches)).map PartItem.GetSerialNumber ↔
      k ∈ (allItems batches).map PartItem.GetSerialNumber) ∧
    (flattenItemMap (mergeAll batches)).length
      = ((allItems batches).map PartItem.GetSerialNumber).toFinset.card ∧
    (∀ itemMap : GoMap PartItem, (flattenItemMap itemMap).Perm (mapValues itemMap)) := by
  have hinv := keyedBySerial_mergeAll batches
  have hser : (flattenItemMap (mergeAll batches)).map PartItem.GetSerialNumber
      = mapKeys (mergeAll batches) := by
    rw [flattenItemMap_eq]
    exact serials_eq_keys _ hinv
  have hmem : ∀ k, k ∈ mapKeys (mergeAll batches) ↔
      k ∈ (allItems batches).map PartItem.GetSerialNumber := by
    intro k
    rw [mem_mapKeys_mergeAll, List.mem_map]
    rfl
  refine ⟨?_, ?_, ?_, ?_⟩
  · rw [hser]
    exact hinv.1
  · intro k
    rw [hser]
    exact hmem k
  · have hlen : (flattenItemMap (mergeAll batches)).length
        = (mapKeys (mergeAll batches)).length := by
      rw [← hser, List.length_map]
    rw [hlen, List.card_toFinset]
    apply List.Perm.length_eq
    apply (List.perm_ext_iff_of_nodup hinv.1 (List.nodup_dedup _)).2
    intro k
    rw [List.mem_dedup]
    exact hmem k
  · intro itemMap
    rw [flattenItemMap_eq]

/-! ## File names and file discovery -/

theorem convert_eq (s : String) :
    convertStepNameToFileName s = "raw-data-download-N199-Housing TI-LDG-" ++ s ++ ".csv" := by
  simp only [convertStepNameToFileName, stringsJoin]
  apply String.ext
  simp only [String.data_append, List.append_assoc]
  rfl

theorem convert_data (s : String) :
    (convertStepNameToFileName s).data
      = "raw-data-download-N199-Housing TI-LDG-".data ++ (s.data ++ ".csv".data) := by
  rw [convert_eq]
  simp only [String.data_append, List.append_assoc]

theorem convert_inj (s t : String)
    (h : convertStepNameToFileName s = convertStepNameToFileName t) : s = t := by
  have h2 := congrArg String.data h
  rw [convert_data, convert_data] at h2
  exact String.ext (List.append_cancel_right (List.append_cancel_left h2))

theorem hasSuffix_convert (s : String) :
    stringsHasSuffix (convertStepNameToFileName s) ".csv" = true := by
  unfold stringsHasSuffix
  rw [convert_data]
  have hl : ".csv".data.length = 4 := rfl
  simp only [List.length_append, hl, Bool.and_eq_true, decide_eq_true_eq]
  constructor
  · omega
  · rw [← List.append_assoc]
    have : ("raw-data-download-N199-Housing TI-LDG-".data ++ s.data).length
        = "raw-data-download-N199-Housing TI-LDG-".data.length + (s.data.length + 4) - 4 := by
      simp only [List.length_append]; omega
    rw [← this, List.drop_left]

/-- C8: `convertStepNameToFileName s` is the fixed text
`raw-data-download-N199-Housing TI-LDG-`, then `s`, then `.csv`; distinct short
codes give distinct file names. -/
theorem convertStepNameToFileName_template :
    (∀ s : String, convertStepNameToFileName s
      = "raw-data-download-N199-Housing TI-LDG-" ++ s ++ ".csv") ∧
    Function.Injective convertStepNameToFileName :=
  ⟨convert_eq, fun s t h => convert_inj s t h⟩

theorem matchShortName_eq_some (name : String) (shorts : List String) (s : String) :
    matchShortName name shorts = some s ↔ s ∈ shorts ∧ name = convertStepNameToFileName s := by
  induction shorts with
  | nil => simp [matchShortName]
  | cons t shorts ih =>
    simp only [matchShortName, List.mem_cons]
    by_cases h : name = convertStepNameToFileName t
    · simp only [h, if_true, Option.some.injEq]
      constructor
      · intro hts
        subst hts
        exact ⟨Or.inl rfl, rfl⟩
      · rintro ⟨_, hc⟩
        exact convert_inj _ _ hc
    · simp only [h, if_false, ih]
      constructor
      · rintro ⟨h1, h2⟩
        exact ⟨Or.inr h1, h2⟩
      · rintro ⟨h1 | h1, h2⟩
        · subst h1
          exact absurd h2 h
        · exact ⟨h1, h2⟩

theorem matchShortName_eq_none (name : String) (shorts : List String) :
    matchShortName name shorts = none ↔ ∀ s ∈ shorts, name ≠ convertStepNameToFileName s := by
  constructor
  · intro h s hs hname
    have := (matchShortName_eq_some name shorts s).2 ⟨hs, hname⟩
    rw [h] at this
    cases this
  · intro h
    cases hm : matchShortName name shorts with
    | none => rfl
    | some s =>
      have := (matchShortName_eq_some name shorts s).1 hm
      exact absurd this.2 (h s this.1)

theorem discoverEntry_skip (join : String → String → String) (path : String)
    (shorts : List String) (m : GoMap String) (f : FileInfo)
    (h : f.IsDir = true ∨ stringsHasSuffix f.Name ".csv" = false ∨
      ∀ s ∈ shorts, f.Name ≠ convertStepNameToFileName s) :
    discoverEntry join path shorts m f = m := by
  unfold discoverEntry
  rcases h with h | h | h
  · simp [h]
  · simp [h]
  · rw [(matchShortName_eq_none f.Name shorts).2 h]
    simp

theorem discoverEntry_keys (join : String → String → String) (path : String)
    (shorts : List String) (m : GoMap String) (f : FileInfo) (s : String) :
    s ∈ mapKeys (discoverEntry join path shorts m f) ↔
      s ∈ mapKeys m ∨
        (f.IsDir = false ∧ s ∈ shorts ∧ f.Name = convertStepNameToFileName s) := by
  unfold discoverEntry
  by_cases hd : f.IsDir = true
  · simp [hd]
  · have hd2 : f.IsDir = false := by simpa using hd
    by_cases hs : stringsHasSuffix f.Name ".csv" = true
    · simp only [hd2, hs, Bool.not_true, Bool.or_self, Bool.false_eq_true, if_false, true_and]
      cases hm : matchShortName f.Name shorts with
      | none =>
        have hn := (matchShortName_eq_none f.Name shorts).1 hm
        simp only
        constructor
        · exact Or.inl
        · rintro (h | ⟨h1, h2⟩)
          · exact h
          · exact absurd h2 (hn s h1)
      | some t =>
        have ht := (matchShortName_eq_some f.Name shorts t).1 hm
        simp only [mem_mapKeys_mapSet]
        constructor
        · rintro (h | h)
          · subst h
            exact Or.inr ht
          · exact Or.inl h
        · rintro (h | ⟨h1, h2⟩)
          · exact Or.inr h
          · exact Or.inl (convert_inj _ _ (h2.symm.trans ht.2))
    · have hs2 : stringsHasSuffix f.Name ".csv" = false := by simpa using hs
      simp only [hd2, hs2, Bool.not_false, Bool.or_true, if_true, true_and]
      constructor
      · exact Or.inl
      · rintro (h | ⟨_, h2⟩)
        · exact h
        · rw [h2, hasSuffix_convert] at hs2
          cases hs2

theorem discoverEntry_values (join : String → String → String) (path : String)
    (shorts : List String) (m : GoMap String) (f : FileInfo)
    (hm : ∀ s v, mapGet m s = some v → v = join path (convertStepNameToFileName s)) :
    ∀ s v, mapGet (discoverEntry join path shorts m f) s = some v →
      v = join path (convertStepNameToFileName s) := by
  intro s v
  unfold discoverEntry
  split
  · exact hm s v
  · cases hmt : matchShortName f.Name shorts with
    | none => exact hm s v
    | some t =>
      have ht := (matchShortName_eq_some f.Name shorts t).1 hmt
      simp only [mapGet_mapSet]
      by_cases hts : t = s
      · subst hts
        simp only [if_true, Option.some.injEq]
        intro h
        rw [← h, ht.2]
      · simp only [hts, if_false]
        exact hm s v

theorem discover_foldl_keys (join : String → String → String) (path : String)
    (shorts : List String) (fileInfos : List FileInfo) (m : GoMap String) (s : String) :
    s ∈ mapKeys (fileInfos.foldl (discoverEntry join path shorts) m) ↔
      s ∈ mapKeys m ∨ (s ∈ shorts ∧
        ∃ f ∈ fileInfos, f.IsDir = false ∧ f.Name = convertStepNameToFileName s) := by
  induction fileInfos generalizing m with
  | nil => simp
  | cons f fs ih =>
    simp only [List.foldl_cons, ih, discoverEntry_keys, List.mem_cons]
    constructor
    · rintro ((h | ⟨h1, h2, h3⟩) | ⟨h1, g, hg, h2⟩)
      · exact Or.inl h
      · exact Or.inr ⟨h2, f, Or.inl rfl, h1, h3⟩
      · exact Or.inr ⟨h1, g, Or.inr hg, h2⟩
    · rintro (h | ⟨h1, g, hg | hg, h2⟩)
      · exact Or.inl (Or.inl h)
      · subst hg
        exact Or.inl (Or.inr ⟨h2.1, h1, h2.2⟩)
      · exact Or.inr ⟨h1, g, hg, h2⟩

theorem discover_foldl_values (join : String → String → String) (path : String)
    (shorts : List String) (fileInfos : List FileInfo) (m : GoMap String)
    (hm : ∀ s v, mapGet m s = some v → v = join path (convertStepNameToFileName s)) :
    ∀ s v, mapGet (fileInfos.foldl (discoverEntry join path shorts) m) s = some v →
      v = join path (convertStepNameToFileName s) := by
  induction fileInfos generalizing m with
  | nil => exact hm
  | cons f fs ih =>
    simp only [List.foldl_cons]
    exact ih _ (discoverEntry_values join path shorts m f hm)

/-- C9: the discovered mapping has key `s` exactly when `s` is a configured
short code and the listing has a non-directory entry named
`convertStepNameToFileName s`; its value is the input directory joined with
that name; and an entry that is a directory, does not end in `.csv` or matches
no configured short code can be added or removed anywhere in the listing
without changing the mapping. -/
theorem discover_spec (filepathJoin : String → String → String) (inputFilesPath : String)
    (stepOrderShort : List String) (fileInfos : List FileInfo) :
    (∀ s, s ∈ mapKeys (discover filepathJoin inputFilesPath stepOrderShort fileInfos) ↔
      s ∈ stepOrderShort ∧
        ∃ f ∈ fileInfos, f.IsDir = false ∧ f.Name = convertStepNameToFileName s) ∧
    (∀ s v, mapGet (discover filepathJoin inputFilesPath stepOrderShort fileInfos) s = some v →
      v = filepathJoin inputFilesPath (convertStepNameToFileName s)) ∧
    (∀ (before after : List FileInfo) (e : FileInfo),
      fileInfos = before ++ after →
      (e.IsDir = true ∨ stringsHasSuffix e.Name ".csv" = false ∨
        ∀ s ∈ stepOrderShort, e.Name ≠ convertStepNameToFileName s) →
      discover filepathJoin inputFilesPath stepOrderShort (before ++ e :: after)
        = discover filepathJoin inputFilesPath stepOrderShort fileInfos) := by
  refine ⟨?_, ?_, ?_⟩
  · intro s
    unfold discover
    rw [discover_foldl_keys]
    simp [mapKeys]
  · unfold discover
    apply discover_foldl_values
    intro s v h
    simp [mapGet] at h
  · intro before after e hsplit he
    subst hsplit
    unfold discover
    simp only [List.foldl_append, List.foldl_cons]
    rw [discoverEntry_skip _ _ _ _ e he]

/-! ## The report -/

theorem buildRow_eq (rs : ResultSet) (fromStep toStep : String) :
    buildRow rs fromStep toStep
      = ["N199", fromStep, toStep] ++ (timeSpentIntervals rs fromStep toStep).map strconvItoa := by
  unfold buildRow
  have h : ∀ (xs : List Int) (acc : Row),
      xs.foldl (fun row interval => row ++ [strconvItoa interval]) acc
        = acc ++ xs.map strconvItoa := by
    intro xs
    induction xs with
    | nil => simp
    | cons x xs ih => intro acc; simp [ih]
  simp [h]

theorem innerLoop_ok (writeFails : Nat → Bool) (rs : ResultSet) (order : List String)
    (fromStep : String) (hw : ∀ k, writeFails k = false) (d : Nat) :
    ∀ (j : Nat) (records : List Row), order.length - j = d →
      innerLoop writeFails rs order fromStep j records =
        { records := records ++ (List.range' j (order.length - j)).map
            (fun j => buildRow rs fromStep (order.getD j "")),
          err := none } := by
  induction d with
  | zero =>
    intro j records hd
    rw [innerLoop]
    have hj : ¬ j < order.length := by omega
    simp [hj, hd]
  | succ d ih =>
    intro j records hd
    rw [innerLoop]
    have hj : j < order.length := by omega
    simp only [hj, if_true, writerWrite, hw]
    simp only [Bool.false_eq_true, if_false]
    rw [ih (j + 1) _ (by omega)]
    have h2 : order.length - j = (order.length - (j + 1)) + 1 := by omega
    rw [h2, List.range'_succ]
    simp

theorem outerLoop_ok (writeFails : Nat → Bool) (rs : ResultSet) (order : List String)
    (hw : ∀ k, writeFails k = false) (d : Nat) :
    ∀ (i : Nat) (records : List Row), order.length - i = d →
      outerLoop writeFails rs order i records =
        { records := records ++ (List.range' i (order.length - i)).flatMap (fun i =>
            (List.range' i (order.length - i)).map
              (fun j => buildRow rs (order.getD i "") (order.getD j ""))),
          err := none } := by
  induction d with
  | zero =>
    intro i records hd
    rw [outerLoop]
    have hi : ¬ i < order.length := by omega
    simp [hi, hd]
  | succ d ih =>
    intro i records hd
    rw [outerLoop]
    have hi : i < order.length := by omega
    simp only [hi, if_true]
    rw [innerLoop_ok writeFails rs order _ hw (order.length - i) i records rfl]
    simp only
    rw [ih (i + 1) _ (by omega)]
    have h2 : order.length - i = (order.length - (i + 1)) + 1 := by omega
    conv_rhs => rw [h2, List.range'_succ]
    simp [← h2]

theorem indexPairs_eq (n : Nat) : indexPairs n
    = (List.range' 0 (n - 0)).flatMap (fun i => (List.range' i (n - i)).map (fun j => (i, j))) := by
  simp [indexPairs, List.range_eq_range']

theorem writeResult_ok (writeFails : Nat → Bool) (rs : ResultSet) (order : List String)
    (hw : ∀ k, writeFails k = false) :
    writeResult none writeFails rs order =
      { records := header :: (indexPairs order.length).map
          (fun p => buildRow rs (order.getD p.1 "") (order.getD p.2 "")),
        err := none } := by
  unfold writeResult
  simp only [writerWrite, hw, Bool.false_eq_true, if_false, List.nil_append]
  rw [outerLoop_ok writeFails rs order hw (order.length - 0) 0 _ rfl, indexPairs_eq]
  simp [List.map_flatMap, Function.comp_def]

theorem mem_indexPairs (n i j : Nat) : (i, j) ∈ indexPairs n ↔ i ≤ j ∧ j < n := by
  simp only [indexPairs, List.mem_flatMap, List.mem_range, List.mem_map, List.mem_range'_1,
    Prod.mk.injEq]
  constructor
  · rintro ⟨a, ha, b, ⟨hb1, hb2⟩, rfl, rfl⟩
    omega
  · rintro ⟨h1, h2⟩
    exact ⟨i, by omega, j, ⟨h1, by omega⟩, rfl, rfl⟩

theorem length_pairs_aux (m : Nat) : ∀ i : Nat,
    ((List.range' i m).flatMap (fun a =>
      (List.range' a (i + m - a)).map (fun j => (a, j)))).length * 2 = m * (m + 1) := by
  induction m with
  | zero => intro i; simp
  | succ m ih =>
    intro i
    rw [List.range'_succ, List.flatMap_cons, List.length_append, List.length_map,
      List.length_range']
    have h := ih (i + 1)
    have hf : (fun a => (List.range' a (i + (m + 1) - a)).map (fun j => (a, j)))
        = (fun a => (List.range' a (i + 1 + m - a)).map (fun j => (a, j))) := by
      funext a
      have : i + (m + 1) - a = i + 1 + m - a := by omega
      rw [this]
    rw [hf]
    have h3 : i + (m + 1) - i = m + 1 := by omega
    rw [h3]
    nlinarith [h]

theorem length_indexPairs (n : Nat) : (indexPairs n).length = n * (n + 1) / 2 := by
  have h := length_pairs_aux n 0
  simp only [Nat.zero_add] at h
  have h2 : indexPairs n = (List.range' 0 n).flatMap (fun a =>
      (List.range' a (n - a)).map (fun j => (a, j))) := by
    simp [indexPairs, List.range_eq_range']
  rw [h2]
  omega

theorem indexPairs_sorted (n : Nat) :
    (indexPairs n).Pairwise (fun p q => p.1 < q.1 ∨ (p.1 = q.1 ∧ p.2 < q.2)) := by
  unfold indexPairs
  rw [List.pairwise_flatMap]
  constructor
  · intro a _
    rw [List.pairwise_map]
    exact (List.pairwise_lt_range' a (n - a)).imp (fun h => Or.inr ⟨rfl, h⟩)
  · refine (List.pairwise_lt_range n).imp ?_
    intro a b hab x hx y hy
    obtain ⟨_, _, rfl⟩ := List.mem_map.1 hx
    obtain ⟨_, _, rfl⟩ := List.mem_map.1 hy
    exact Or.inl hab

/-- C6: when the file is created and no write fails, `writeResult` returns no
error and writes the header followed by one row per index pair `(i, j)` with
`i ≤ j < n`, in lexicographic order of `(i, j)`: `n * (n + 1) / 2` data rows,
whose 2nd and 3rd fields are `stepOrder[i]` and `stepOrder[j]`. -/
theorem writeResult_rows (resultSet : ResultSet) (fullStepOrdering : List String)
    (writeFails : Nat → Bool) (hw : ∀ k, writeFails k = false) :
    (writeResult none writeFails resultSet fullStepOrdering).err = none ∧
    (writeResult none writeFails resultSet fullStepOrdering).records
      = header :: (indexPairs fullStepOrdering.length).map (fun p =>
          buildRow resultSet (fullStepOrdering.getD p.1 "") (fullStepOrdering.getD p.2 "")) ∧
    (∀ i j, (i, j) ∈ indexPairs fullStepOrdering.length ↔ i ≤ j ∧ j < fullStepOrdering.length) ∧
    (indexPairs fullStepOrdering.length).Pairwise
      (fun p q => p.1 < q.1 ∨ (p.1 = q.1 ∧ p.2 < q.2)) ∧
    (indexPairs fullStepOrdering.length).length
      = fullStepOrdering.length * (fullStepOrdering.length + 1) / 2 ∧
    (∀ p ∈ indexPairs fullStepOrdering.length,
      fullStepOrdering[p.1]? = some (fullStepOrdering.getD p.1 "") ∧
      fullStepOrdering[p.2]? = some (fullStepOrdering.getD p.2 "")) ∧
    (∀ fromStep toStep : String,
      (buildRow resultSet fromStep toStep)[1]? = some fromStep ∧
      (buildRow resultSet fromStep toStep)[2]? = some toStep) := by
  refine ⟨?_, ?_, ?_, ?_, ?_, ?_, ?_⟩
  · rw [writeResult_ok _ _ _ hw]
  · rw [writeResult_ok _ _ _ hw]
  · exact mem_indexPairs _
  · exact indexPairs_sorted _
  · exact length_indexPairs _
  · rintro ⟨i, j⟩ hp
    have h := (mem_indexPairs _ i j).1 hp
    have hi : i < fullStepOrdering.length := by omega
    simp [List.getD_eq_getElem?_getD, List.getElem?_eq_getElem, hi, h.2]
  · intro a b
    rw [buildRow_eq]
    simp

/-- Witness of C6: the three data rows written for the order A, B. -/
theorem writeResult_rows_witness :
    (∀ k, neverFails k = false) ∧
    (writeResult none neverFails onlyStepA ["A", "B"]).records
      = [header,
         ["N199", "A", "A", "1", "0", "0", "0", "0", "0", "0", "0"],
         ["N199", "A", "B"],
         ["N199", "B", "B"]] :=
  ⟨fun _ => rfl,
    (writeResult_rows onlyStepA ["A", "B"] neverFails (fun _ => rfl)).2.1.trans (by decide)⟩

theorem innerLoop_extra (writeFails : Nat → Bool) (rs : ResultSet) (order : List String)
    (fromStep : String) (d : Nat) :
    ∀ (j : Nat) (records : List Row), order.length - j = d →
      ∃ extra, (innerLoop writeFails rs order fromStep j records).records = records ++ extra ∧
        ∀ r ∈ extra, ∃ j2, j ≤ j2 ∧ j2 < order.length ∧
          r = buildRow rs fromStep (order.getD j2 "") := by
  induction d with
  | zero =>
    intro j records hd
    rw [innerLoop]
    have hj : ¬ j < order.length := by omega
    exact ⟨[], by simp [hj], by simp⟩
  | succ d ih =>
    intro j records hd
    rw [innerLoop]
    have hj : j < order.length := by omega
    simp only [hj, if_true, writerWrite]
    by_cases hf : writeFails records.length = true
    · simp only [hf, if_true]
      exact ⟨[], by simp, by simp⟩
    · simp only [hf, Bool.false_eq_true, if_false]
      obtain ⟨extra, he, hq⟩ := ih (j + 1)
        (records ++ [buildRow rs fromStep (order.getD j "")]) (by omega)
      refine ⟨buildRow rs fromStep (order.getD j "") :: extra, ?_, ?_⟩
      · rw [he]
        simp
      · intro r hr
        rcases List.mem_cons.1 hr with h | h
        · exact ⟨j, Nat.le_refl _, hj, h⟩
        · obtain ⟨j2, h1, h2, h3⟩ := hq r h
          exact ⟨j2, by omega, h2, h3⟩

theorem outerLoop_extra (writeFails : Nat → Bool) (rs : ResultSet) (order : List String)
    (d : Nat) :
    ∀ (i : Nat) (records : List Row), order.length - i = d →
      ∃ extra, (outerLoop writeFails rs order i records).records = records ++ extra ∧
        ∀ r ∈ extra, ∃ i2 j2, i2 ≤ j2 ∧ j2 < order.length ∧
          r = buildRow rs (order.getD i2 "") (order.getD j2 "") := by
  induction d with
  | zero =>
    intro i records hd
    rw [outerLoop]
    have hi : ¬ i < order.length := by omega
    exact ⟨[], by simp [hi], by simp⟩
  | succ d ih =>
    intro i records hd
    rw [outerLoop]
    have hi : i < order.length := by omega
    simp only [hi, if_true]
    obtain ⟨ex1, he1, hq1⟩ := innerLoop_extra writeFails rs order (order.getD i "")
      (order.length - i) i records rfl
    have hq1b : ∀ r ∈ ex1, ∃ i2 j2, i2 ≤ j2 ∧ j2 < order.length ∧
        r = buildRow rs (order.getD i2 "") (order.getD j2 "") := by
      intro r hr
      obtain ⟨j2, h1, h2, h3⟩ := hq1 r hr
      exact ⟨i, j2, h1, h2, h3⟩
    cases herr : (innerLoop writeFails rs order (order.getD i "") i records).err with
    | some e =>
      simp only
      exact ⟨ex1, he1, hq1b⟩
    | none =>
      simp only
      obtain ⟨ex2, he2, hq2⟩ := ih (i + 1)
        (innerLoop writeFails rs order (order.getD i "") i records).records (by omega)
      refine ⟨ex1 ++ ex2, ?_, ?_⟩
      · rw [he2, he1, List.append_assoc]
      · intro r hr
        rcases List.mem_append.1 hr with h | h
        · exact hq1b r h
        · exact hq2 r h

theorem writeResult_data_rows (createErr : Option String) (writeFails : Nat → Bool)
    (rs : ResultSet) (order : List String) :
    ∀ r ∈ (writeResult createErr writeFails rs order).records.tail,
      ∃ i j, i ≤ j ∧ j < order.length ∧
        r = buildRow rs (order.getD i "") (order.getD j "") := by
  unfold writeResult
  cases createErr with
  | some e => simp
  | none =>
    simp only [writerWrite, List.length_nil, List.nil_append]
    by_cases hf : writeFails 0 = true
    · simp [hf]
    · simp only [hf, Bool.false_eq_true, if_false]
      obtain ⟨extra, he, hq⟩ := outerLoop_extra writeFails rs order (order.length - 0) 0
        [header] rfl
      rw [he]
      simpa using hq

/-- C10: the data row for the pair `(stepOrder[i], stepOrder[j])` is `N199`,
`stepOrder[i]`, `stepOrder[j]`, then the base-10 renderings of the counts of
`StepsTimeNumber[stepOrder[i]][stepOrder[j]]` in bucket order and nothing else;
a pair absent from the ResultSet gives the three leading fields only; these
are the rows written, in the order of the index pairs, when no write fails. -/
theorem row_content (resultSet : ResultSet) (fullStepOrdering : List String)
    (writeFails : Nat → Bool) (hw : ∀ k, writeFails k = false) :
    (∀ fromStep toStep : String, buildRow resultSet fromStep toStep
      = ["N199", fromStep, toStep]
          ++ (timeSpentIntervals resultSet fromStep toStep).map strconvItoa) ∧
    (∀ fromStep toStep : String,
      (mapGet resultSet.StepsTimeNumber fromStep = none ∨
        ∃ inner, mapGet resultSet.StepsTimeNumber fromStep = some inner ∧
          mapGet inner toStep = none) →
      buildRow resultSet fromStep toStep = ["N199", fromStep, toStep]) ∧
    (writeResult none writeFails resultSet fullStepOrdering).records.tail
      = (indexPairs fullStepOrdering.length).map (fun p =>
          ["N199", fullStepOrdering.getD p.1 "", fullStepOrdering.getD p.2 ""]
            ++ (timeSpentIntervals resultSet (fullStepOrdering.getD p.1 "")
                  (fullStepOrdering.getD p.2 "")).map strconvItoa) ∧
    (∀ p ∈ indexPairs fullStepOrdering.length,
      fullStepOrdering[p.1]? = some (fullStepOrdering.getD p.1 "") ∧
      fullStepOrdering[p.2]? = some (fullStepOrdering.getD p.2 "")) := by
  refine ⟨buildRow_eq resultSet, ?_, ?_, ?_⟩
  · intro a b h
    rw [buildRow_eq]
    rcases h with h | ⟨inner, h1, h2⟩
    · simp [timeSpentIntervals, h]
    · simp [timeSpentIntervals, h1, h2]
  · rw [writeResult_ok _ _ _ hw]
    simp only [List.tail_cons]
    apply List.map_congr_left
    intro p _
    exact buildRow_eq _ _ _
  · rintro ⟨i, j⟩ hp
    have h := (mem_indexPairs _ i j).1 hp
    have hi : i < fullStepOrdering.length := by omega
    simp [List.getD_eq_getElem?_getD, List.getElem?_eq_getElem, hi, h.2]

/-- Witness of C10: the data rows for the order A, B when only (A, A) is in
the ResultSet. -/
theorem row_content_witness :
    (∀ k, neverFails k = false) ∧
    (writeResult none neverFails onlyStepA ["A", "B"]).records.tail
      = [["N199", "A", "A", "1", "0", "0", "0", "0", "0", "0", "0"],
         ["N199", "A", "B"],
         ["N199", "B", "B"]] :=
  ⟨fun _ => rfl,
    (row_content onlyStepA ["A", "B"] neverFails (fun _ => rfl)).2.2.1.trans (by decide)⟩

/-! ## The run -/

/-- C5: when loading the configuration fails, reading the input directory
fails, or an error is on the error channel once the Ingestors have finished,
`start` ends without merging, without running the Aggregator and without
calling `writeResult`; `writeResult` is called only when none of the three
occurs, and then it is called, after the merge and the Aggregator. -/
theorem start_no_partial_success (env : Env) (flags : Flags) :
    (((∃ e, env.newConfigFromFile flags.configFilePath = Except.error e) ∨
        (∃ e, env.readDir flags.inputFilesPath = Except.error e) ∨
        ingestErrors env flags ≠ []) →
      (start env flags).merged = none ∧ (start env flags).aggregated = none ∧
        (start env flags).written = none) ∧
    ((start env flags).written ≠ none →
      (∃ config, env.newConfigFromFile flags.configFilePath = Except.ok config) ∧
      (∃ fileInfos, env.readDir flags.inputFilesPath = Except.ok fileInfos) ∧
      ingestErrors env flags = []) ∧
    (((∃ config, env.newConfigFromFile flags.configFilePath = Except.ok config) ∧
        (∃ fileInfos, env.readDir flags.inputFilesPath = Except.ok fileInfos) ∧
        ingestErrors env flags = []) →
      (start env flags).merged ≠ none ∧ (start env flags).aggregated ≠ none ∧
        (start env flags).written ≠ none) := by
  cases hc : env.newConfigFromFile flags.configFilePath with
  | error e => simp [start, hc]
  | ok config =>
    cases hr : env.readDir flags.inputFilesPath with
    | error e => simp [start, hc, hr]
    | ok fileInfos =>
      cases he : sentErrors ((discover env.filepathJoin flags.inputFilesPath
          config.StepOrderShort fileInfos).map (fun e =>
            env.readFileAndConvertToItem e.2 config.StepOrder e.1
              ((mapGet config.NameMap e.1).getD ""))) with
      | nil => simp [start, ingestErrors, hc, hr, he]
      | cons x xs => simp [start, ingestErrors, hc, hr, he]

/-- Witness of C9: removing the directory entry from a listing leaves the
discovered mapping unchanged. -/
theorem discover_spec_witness :
    discover (fun d n => d ++ "/" ++ n) "in" ["A", "B"] exampleListing
      = discover (fun d n => d ++ "/" ++ n) "in" ["A", "B"]
          [{ Name := "raw-data-download-N199-Housing TI-LDG-A.csv", IsDir := false },
           { Name := "notes.txt", IsDir := false },
           { Name := "other.csv", IsDir := false }] :=
  (discover_spec (fun d n => d ++ "/" ++ n) "in" ["A", "B"]
    [{ Name := "raw-data-download-N199-Housing TI-LDG-A.csv", IsDir := false },
     { Name := "notes.txt", IsDir := false },
     { Name := "other.csv", IsDir := false }]).2.2
    [{ Name := "raw-data-download-N199-Housing TI-LDG-A.csv", IsDir := false }]
    [{ Name := "notes.txt", IsDir := false }, { Name := "other.csv", IsDir := false }]
    { Name := "archive", IsDir := true } rfl (Or.inl rfl)

end TraceData
